import Mathlib

/-
Verification of the elastic2-doc-manager write-buffering engine against its
natural-language specification.  The repository ships only the test suite;
the engine itself (Update Applier, Write Buffer, Commit Scheduler, Operation
Coordinator) is modelled here from the specification, with the repository
tests pinning observable behavior where they are explicit.
-/

namespace Elastic2

/-- Modelled from the spec: a document field value (JSON-like scalar or a
binary payload transported as a byte list). -/
inductive Value where
  | vInt (n : Int)
  | vStr (s : String)
  | vBool (b : Bool)
  | vBytes (bs : List Nat)
deriving DecidableEq, Repr

/-- Modelled from the spec: a document is an ordered association of field
names to values. -/
abbrev Doc := List (String × Value)

/-- Field lookup on a document. -/
def getField : Doc → String → Option Value
  | [], _ => none
  | p :: rest, k => if p.1 == k then some p.2 else getField rest k

/-- Field assignment: replace in place when the field exists, else append. -/
def setField : Doc → String → Value → Doc
  | [], k, v => [(k, v)]
  | p :: rest, k, v =>
    if p.1 == k then (k, v) :: rest else p :: setField rest k v

/-- Field removal. -/
def unsetField (d : Doc) (k : String) : Doc :=
  d.filter (fun p => p.1 != k)

/-- Modelled from the spec: the backend-safe string form of a source
document identifier. -/
def valueToIdStr : Value → String
  | .vStr s => s
  | .vInt n => toString n
  | .vBool b => toString b
  | .vBytes _ => ""

/-- Modelled from the spec: normalize the identity field of a document to
its canonical string form. -/
def normalizeDoc (d : Doc) : Doc :=
  match getField d "_id" with
  | some v => setField d "_id" (.vStr (valueToIdStr v))
  | none => d

/-- Modelled from the spec (Update Applier, 4.1): a partial-update
specification holds a field-assignment list and a field-removal list. -/
structure UpdateSpec where
  assign : List (String × Value)
  removeFields : List String
deriving DecidableEq, Repr

/-- Modelled from the spec (Update Applier, 4.1): apply assignments, then
removals (removal takes precedence for a field present in both). -/
def applyUpdate (spec : UpdateSpec) (d : Doc) : Doc :=
  let d1 := spec.assign.foldl (fun acc p => setField acc p.1 p.2) d
  spec.removeFields.foldl (fun acc k => unsetField acc k) d1

/-- Modelled from the spec: a Document Identity, the pair of a namespace
(database.collection) and the string form of the document id. -/
structure Ident where
  ns : String
  docId : String
deriving DecidableEq, Repr

/-- Modelled from the spec (Write Buffer, 4.2): the effective buffered state
for one identity is either a pending full document (upsert, with merged
updates already applied) or a tombstone (remove). -/
inductive BufEntry where
  | bUpsert (doc : Doc) (ts : Nat)
  | bRemove (ts : Nat)
deriving DecidableEq, Repr

/-- A document as stored by the backend: body, modification timestamp, and
a write sequence number recording upsert order (used for tie-breaks). -/
structure StoredDoc where
  doc : Doc
  ts : Nat
  seq : Nat
deriving DecidableEq, Repr

/-- Modelled from the spec (6): the backend as a transactional sink: a
durable keyed store plus the set of identities visible to queries. -/
structure Backend where
  store : List (Ident × StoredDoc)
  visible : List Ident
deriving DecidableEq, Repr

/-- Trace of calls issued to the backend, used to state ordering
properties such as flush-before-drop. -/
inductive BackendEvent where
  | evBulkWrite (batch : List (Ident × BufEntry))
  | evRefresh
  | evDropNamespace (ns : String)
  | evDropDatabase (db : String)
  | evCreate (ns : String)
deriving DecidableEq, Repr

/-- Modelled from the spec: full engine state: the Write Buffer (at most
one entry per identity), the backend, the next write sequence number, and
the trace of backend calls. -/
structure DMState where
  buffer : List (Ident × BufEntry)
  backend : Backend
  nextSeq : Nat
  trace : List BackendEvent
deriving DecidableEq, Repr

/-- The state of a freshly constructed engine: empty buffer, empty
backend, no backend call issued yet. -/
def initState : DMState := ⟨[], ⟨[], []⟩, 0, []⟩

/-- Modelled from the spec (Write Buffer, 4.2): enqueue keyed by identity:
re-enqueuing an identity already present overwrites its buffered entry
rather than appending a duplicate. -/
def enqueueBuf (i : Ident) (e : BufEntry) (b : List (Ident × BufEntry)) :
    List (Ident × BufEntry) :=
  b.filter (fun p => p.1 != i) ++ [(i, e)]

/-- The string id carried by a document body (empty when absent). -/
def docIdOf (d : Doc) : String :=
  valueToIdStr ((getField d "_id").getD (.vStr ""))

/-- The identity a document addresses within a namespace. -/
def identOfDoc (d : Doc) (ns : String) : Ident := ⟨ns, docIdOf d⟩

/-- Modelled from the spec (4.4): upsert enqueues a full replacement; no
backend round trip happens here. -/
def upsertDM (doc : Doc) (ns : String) (ts : Nat) (s : DMState) : DMState :=
  { s with buffer :=
      enqueueBuf (identOfDoc doc ns) (.bUpsert (normalizeDoc doc) ts) s.buffer }

/-- Modelled from the spec (4.4): bulk_upsert enqueues many upserts; an
empty input enqueues nothing and makes no backend call. -/
def bulkUpsertDM (docs : List Doc) (ns : String) (ts : Nat) (s : DMState) :
    DMState :=
  docs.foldl (fun st d => upsertDM d ns ts st) s

/-- Modelled from the spec (4.4): remove enqueues a tombstone, discarding
any prior buffered state for that identity. -/
def removeDM (docId : Value) (ns : String) (ts : Nat) (s : DMState) : DMState :=
  { s with buffer :=
      enqueueBuf ⟨ns, valueToIdStr docId⟩ (.bRemove ts) s.buffer }

/-- Modelled from the spec (4.4): update applies the spec to the cached
body when buffered, else to the backend copy, enqueues the merged result,
and returns the new logical document synchronously. -/
def cachedDocFor (i : Ident) (s : DMState) : Option Doc :=
  match s.buffer.find? (fun p => p.1 == i) with
  | some (_, .bUpsert d _) => some d
  | some (_, .bRemove _) => none
  | none =>
    match s.backend.store.find? (fun p => p.1 == i) with
    | some (_, sd) => some sd.doc
    | none => none

/-- Modelled from the spec (4.4, continued): the update operation built on
the cached-source lookup. -/
def updateDM (docId : Value) (spec : UpdateSpec) (ns : String) (ts : Nat)
    (s : DMState) : DMState × Option Doc :=
  match cachedDocFor ⟨ns, valueToIdStr docId⟩ s with
  | none => (s, none)
  | some d =>
    let nd := normalizeDoc (applyUpdate spec d)
    ({ s with buffer :=
        enqueueBuf ⟨ns, valueToIdStr docId⟩ (.bUpsert nd ts) s.buffer },
     some nd)

/-- Apply one drained buffer entry to the backend store: an upsert writes
the body under its identity, a remove deletes the identity. -/
def applyEntryToStore (st : List (Ident × StoredDoc)) (sq : Nat)
    (p : Ident × BufEntry) : List (Ident × StoredDoc) :=
  match p.2 with
  | .bUpsert d ts => st.filter (fun q => q.1 != p.1) ++ [(p.1, ⟨d, ts, sq⟩)]
  | .bRemove _ => st.filter (fun q => q.1 != p.1)

/-- Fold a drained batch into the backend store in buffer order, numbering
writes with consecutive sequence numbers. -/
def flushStore : List (Ident × BufEntry) → List (Ident × StoredDoc) × Nat →
    List (Ident × StoredDoc) × Nat
  | [], acc => acc
  | p :: rest, (st, sq) => flushStore rest (applyEntryToStore st sq p, sq + 1)

/-- Modelled from the spec (4.3): send drains the Write Buffer to the
backend (durable, not necessarily query-visible); no backend call is made
for an empty buffer. -/
def sendBuffer (s : DMState) : DMState :=
  let r := flushStore s.buffer (s.backend.store, s.nextSeq)
  { buffer := [],
    backend := { store := r.1, visible := s.backend.visible },
    nextSeq := r.2,
    trace :=
      if s.buffer.isEmpty then s.trace
      else s.trace ++ [.evBulkWrite s.buffer] }

/-- Modelled from the spec (4.3): the visibility refresh makes all durable
documents visible to queries. -/
def refreshDM (s : DMState) : DMState :=
  { s with
    backend := { store := s.backend.store,
                 visible := s.backend.store.map (fun p => p.1) },
    trace := s.trace ++ [.evRefresh] }

/-- Modelled from the spec (4.3): commit = send plus visibility refresh. -/
def commitDM (s : DMState) : DMState := refreshDM (sendBuffer s)

/-- The backend documents currently visible to queries. -/
def visibleDocs (s : DMState) : List (Ident × StoredDoc) :=
  s.backend.store.filter (fun p => s.backend.visible.contains p.1)

/-- Modelled from the spec (4.4): search returns visible backend documents
whose modification timestamp lies in the inclusive range; it does not
consult the Write Buffer. -/
def searchDM (s : DMState) (a b : Nat) : List Doc :=
  ((visibleDocs s).filter (fun p => a ≤ p.2.ts && p.2.ts ≤ b)).map
    (fun p => p.2.doc)

/-- Entry q is strictly preferred over p by get_last_doc: later timestamp,
or equal timestamp and later upsert sequence. -/
def laterEntry (p q : Ident × StoredDoc) : Bool :=
  decide (p.2.ts < q.2.ts ∨ (p.2.ts = q.2.ts ∧ p.2.seq < q.2.seq))

/-- Modelled from the spec (4.4): get_last_doc returns the visible backend
document with the maximum modification timestamp, ties broken by the most
recently upserted identity, or nothing when the backend is empty. -/
def getLastDocDM (s : DMState) : Option Doc :=
  match visibleDocs s with
  | [] => none
  | p :: rest =>
    some ((rest.foldl (fun best q => if laterEntry best q then q else best)
      p).2.doc)

/-- Base64 value-to-character encoding (character given as ASCII code). -/
def b64EncVal (n : Nat) : Nat :=
  if n < 26 then n + 65
  else if n < 52 then n + 71
  else if n < 62 then n - 4
  else if n = 62 then 43
  else 47

/-- Base64 character-to-value decoding (character given as ASCII code). -/
def b64DecVal (c : Nat) : Nat :=
  if 65 ≤ c ∧ c ≤ 90 then c - 65
  else if 97 ≤ c ∧ c ≤ 122 then c - 71
  else if 48 ≤ c ∧ c ≤ 57 then c + 4
  else if c = 43 then 62
  else if c = 47 then 63
  else 0

/-- Modelled from the spec (4.4, insert_file): base64 encoding of a byte
sequence, with standard padding (ASCII 61 is the pad character). -/
def b64Encode : List Nat → List Nat
  | [] => []
  | [b1] => [b64EncVal (b1 / 4), b64EncVal (b1 % 4 * 16), 61, 61]
  | [b1, b2] =>
    [b64EncVal (b1 / 4), b64EncVal (b1 % 4 * 16 + b2 / 16),
     b64EncVal (b2 % 16 * 4), 61]
  | b1 :: b2 :: b3 :: rest =>
    b64EncVal (b1 / 4) :: b64EncVal (b1 % 4 * 16 + b2 / 16) ::
    b64EncVal (b2 % 16 * 4 + b3 / 64) :: b64EncVal (b3 % 64) ::
    b64Encode rest

/-- Base64 decoding, the inverse of the encoder on padded input. -/
def b64Decode : List Nat → List Nat
  | c1 :: c2 :: c3 :: c4 :: rest =>
    if c3 = 61 then
      [b64DecVal c1 * 4 + b64DecVal c2 / 16]
    else if c4 = 61 then
      [b64DecVal c1 * 4 + b64DecVal c2 / 16,
       b64DecVal c2 % 16 * 16 + b64DecVal c3 / 4]
    else
      (b64DecVal c1 * 4 + b64DecVal c2 / 16) ::
      (b64DecVal c2 % 16 * 16 + b64DecVal c3 / 4) ::
      (b64DecVal c3 % 4 * 64 + b64DecVal c4) :: b64Decode rest
  | _ => []

/-- Modelled from the spec (4.4): insert_file upserts a document whose
binary payload is base64-encoded into the document body (field content)
before buffering. -/
def insertFileDM (meta : Doc) (data : List Nat) (ns : String) (ts : Nat)
    (s : DMState) : DMState :=
  upsertDM (setField meta "content" (.vBytes (b64Encode data))) ns ts s

/-- Modelled from the spec (4.4): the administrative commands routed
through handle_command. -/
inductive AdminCommand where
  | create (coll : String)
  | drop (coll : String)
  | dropDatabase
  | unknownCmd
deriving DecidableEq, Repr

/-- The database part of a namespace string (before the first dot). -/
def dbOf (ns : String) : String := (ns.splitOn ".").headD ns

/-- Modelled from the spec (4.2): purge every buffered entry addressed to
one namespace. -/
def purgeNamespaceBuf (target : String) (b : List (Ident × BufEntry)) :
    List (Ident × BufEntry) :=
  b.filter (fun p => p.1.ns != target)

/-- Modelled from the spec (4.2): purge every buffered entry addressed to
any namespace under one database. -/
def purgeDbBuf (db : String) (b : List (Ident × BufEntry)) :
    List (Ident × BufEntry) :=
  b.filter (fun p => dbOf p.1.ns != db)

/-- The backend drop of one namespace: deletes its documents and their
visibility. -/
def dropNamespaceBackend (target : String) (s : DMState) : DMState :=
  { s with
    backend := { store := s.backend.store.filter (fun p => p.1.ns != target),
                 visible := s.backend.visible.filter (fun i => i.ns != target) },
    trace := s.trace ++ [.evDropNamespace target] }

/-- The backend drop of a whole database: deletes every namespace under
it. -/
def dropDatabaseBackend (db : String) (s : DMState) : DMState :=
  { s with
    backend := { store := s.backend.store.filter (fun p => dbOf p.1.ns != db),
                 visible := s.backend.visible.filter (fun i => dbOf i.ns != db) },
    trace := s.trace ++ [.evDropDatabase db] }

/-- Modelled from the spec (4.4): handle_command.  Destructive commands
flush-and-wait (commit) before issuing the destructive backend call, then
purge the buffer for the affected namespace(s); create is forwarded;
unknown commands are no-ops. -/
def handleCommandDM (cmd : AdminCommand) (ns : String) (_ts : Nat)
    (s : DMState) : DMState :=
  match cmd with
  | .create c =>
    { s with trace := s.trace ++ [.evCreate (dbOf ns ++ "." ++ c)] }
  | .drop c =>
    let target := dbOf ns ++ "." ++ c
    let s1 := commitDM s
    let s2 := { s1 with buffer := purgeNamespaceBuf target s1.buffer }
    dropNamespaceBackend target s2
  | .dropDatabase =>
    let db := dbOf ns
    let s1 := commitDM s
    let s2 := { s1 with buffer := purgeDbBuf db s1.buffer }
    dropDatabaseBackend db s2
  | .unknownCmd => s

/-- A foreground call arriving at the engine during a timed run. -/
inductive FgOp where
  | fgUpsert (doc : Doc) (ns : String) (ts : Nat)
  | fgCommit
deriving DecidableEq, Repr

/-- Apply one foreground call to the engine state. -/
def applyFg : FgOp → DMState → DMState
  | .fgUpsert d ns ts, s => upsertDM d ns ts s
  | .fgCommit, s => commitDM s

/-- Modelled from the spec (4.3): the scheduling configuration: nullable
send and commit intervals. -/
structure SchedCfg where
  autoCommit : Option Nat
  autoSend : Option Nat
deriving DecidableEq, Repr

/-- A fixed-period timer with period x fires at times x, 2x, 3x, ... -/
def periodicFires (x t : Nat) : Bool := t % x == 0 && t != 0

/-- Modelled from the spec (4.3): the commit timer is disabled for a null
interval, fires at every instant for interval 0 (commit immediately), and
fires on a fixed period otherwise. -/
def commitFires (i : Option Nat) (t : Nat) : Bool :=
  match i with
  | none => false
  | some 0 => true
  | some (x + 1) => periodicFires (x + 1) t

/-- Modelled from the spec (4.3) with the send-timer interval-0 case pinned
by tests/test_elastic2_doc_manager.py test_auto_send_interval (None, 0 = no
auto send): the send timer is disabled for a null or zero interval and
fires on a fixed period otherwise. -/
def sendFires (i : Option Nat) (t : Nat) : Bool :=
  match i with
  | none => false
  | some 0 => false
  | some (x + 1) => periodicFires (x + 1) t

/-- One instant of a timed run: foreground calls scheduled at this instant
are applied in order, then the send timer, then the commit timer. -/
def stepAt (cfg : SchedCfg) (ops : List (Nat × FgOp)) (t : Nat)
    (s : DMState) : DMState :=
  let s1 := ((ops.filter (fun p => p.1 == t)).map (fun p => p.2)).foldl
    (fun st op => applyFg op st) s
  let s2 := if sendFires cfg.autoSend t then sendBuffer s1 else s1
  if commitFires cfg.autoCommit t then commitDM s2 else s2

/-- The engine state after running instants 0..t from a fresh engine. -/
def runTo (cfg : SchedCfg) (ops : List (Nat × FgOp)) : Nat → DMState
  | 0 => stepAt cfg ops 0 initState
  | t + 1 => stepAt cfg ops (t + 1) (runTo cfg ops t)

/-- The scheduling-relevant projection of the engine state: buffer, durable
store, visible identities, next sequence number (the trace is elided). -/
def coreOf (s : DMState) :
    List (Ident × BufEntry) × List (Ident × StoredDoc) × List Ident × Nat :=
  (s.buffer, s.backend.store, s.backend.visible, s.nextSeq)

/-- Whether the commit timer fired at some instant f with a ≤ f ≤ b. -/
def firedIn (i : Option Nat) (a b : Nat) : Bool :=
  (List.range (b + 1)).any (fun f => a ≤ f && commitFires i f)

/-- Whether the send timer fired at some instant f with a ≤ f ≤ b. -/
def sentIn (i : Option Nat) (a b : Nat) : Bool :=
  (List.range (b + 1)).any (fun f => a ≤ f && sendFires i f)

/-- Modelled from the spec (7, tests): a dynamically typed configuration
argument as it arrives from the caller. -/
inductive PyVal where
  | pyDict (entries : List (String × String))
  | pyStr (s : String)
  | pyInt (n : Int)
deriving DecidableEq, Repr

/-- Modelled from the spec (7): the construction-time configuration
error. -/
inductive ConfigError where
  | invalidConfiguration (msg : String)
deriving DecidableEq, Repr

/-- Renaming of legacy AWS option names to their canonical names. -/
def oldSessionKey : String → Option String
  | "region" => some "region_name"
  | "access_id" => some "aws_access_key_id"
  | "secret_key" => some "aws_secret_access_key"
  | _ => none

/-- Modelled from the spec (7, tests): convert_aws_args rejects a non-dict
argument with InvalidConfiguration and renames legacy option names. -/
def convert_aws_args : PyVal → Except ConfigError (List (String × String))
  | .pyDict entries =>
    .ok (entries.map (fun p =>
      match oldSessionKey p.1 with
      | some k => (k, p.2)
      | none => p))
  | _ => .error (.invalidConfiguration "aws args must be a dict")

/-- The validated construction-time configuration of the engine. -/
structure DocManagerConfig where
  url : String
  awsSigned : Bool
deriving DecidableEq, Repr

/-- Modelled from the spec (7): engine construction validates the
configuration before any buffering starts: an aws option without the AWS
extension installed, or malformed aws arguments, fail fast with
InvalidConfiguration; a successful construction starts with an empty
buffer. -/
def docManagerInit (url : String) (aws : Option PyVal) (hasAws : Bool) :
    Except ConfigError (DocManagerConfig × DMState) :=
  match aws with
  | none => .ok (⟨url, false⟩, initState)
  | some a =>
    if hasAws then
      match convert_aws_args a with
      | .ok _ => .ok (⟨url, true⟩, initState)
      | .error e => .error e
    else .error (.invalidConfiguration "aws extras must be installed")

/-- The public operations of the Operation Coordinator, used to state
invariants preserved at any time. -/
inductive PublicOp where
  | opUpsert (doc : Doc) (ns : String) (ts : Nat)
  | opBulkUpsert (docs : List Doc) (ns : String) (ts : Nat)
  | opUpdate (docId : Value) (spec : UpdateSpec) (ns : String) (ts : Nat)
  | opRemove (docId : Value) (ns : String) (ts : Nat)
  | opInsertFile (meta : Doc) (data : List Nat) (ns : String) (ts : Nat)
  | opCommit
  | opSend
  | opHandleCommand (cmd : AdminCommand) (ns : String) (ts : Nat)
deriving DecidableEq, Repr

/-- Apply one public operation to the engine state. -/
def applyPublic : PublicOp → DMState → DMState
  | .opUpsert d ns ts, s => upsertDM d ns ts s
  | .opBulkUpsert ds ns ts, s => bulkUpsertDM ds ns ts s
  | .opUpdate i spec ns ts, s => (updateDM i spec ns ts s).1
  | .opRemove i ns ts, s => removeDM i ns ts s
  | .opInsertFile m data ns ts, s => insertFileDM m data ns ts s
  | .opCommit, s => commitDM s
  | .opSend, s => sendBuffer s
  | .opHandleCommand cmd ns ts, s => handleCommandDM cmd ns ts s

/-- The buffer holds at most one entry per Document Identity. -/
def buffUnique (b : List (Ident × BufEntry)) : Prop :=
  ∀ i : Ident, (b.filter (fun p => p.1 == i)).length ≤ 1

/-- Looking up the field just assigned yields the assigned value. -/
theorem getField_setField_self (d : Doc) (k : String) (v : Value) :
    getField (setField d k v) k = some v := by
  induction d with
  | nil => simp [setField, getField]
  | cons p rest ih =>
    by_cases h : p.1 = k
    · simp [setField, getField, h]
    · simpa [setField, getField, h] using ih

/-- Assigning one field leaves lookups of other fields unchanged. -/
theorem getField_setField_other (d : Doc) (k k2 : String) (v : Value)
    (hk : k ≠ k2) : getField (setField d k2 v) k = getField d k := by
  have hk2 : k2 ≠ k := fun h => hk h.symm
  induction d with
  | nil => simp [setField, getField, hk2]
  | cons p rest ih =>
    by_cases h : p.1 = k2
    · simp [setField, getField, h, hk2]
    · by_cases h2 : p.1 = k
      · simp [setField, getField, h, h2, hk]
      · simpa [setField, getField, h, h2] using ih

/-- Identity normalization does not disturb fields other than the identity
field. -/
theorem getField_normalizeDoc_other (d : Doc) (k : String)
    (hk : k ≠ "_id") : getField (normalizeDoc d) k = getField d k := by
  unfold normalizeDoc
  cases h : getField d "_id" with
  | none => rfl
  | some v => exact getField_setField_other d k "_id" _ hk

/-- Base64 decoding inverts base64 encoding on each six-bit value. -/
theorem b64_decVal_encVal (s : Nat) (h : s < 64) :
    b64DecVal (b64EncVal s) = s := by
  unfold b64EncVal b64DecVal
  split_ifs <;> omega

/-- No six-bit value encodes to the padding character. -/
theorem b64_encVal_ne_pad (s : Nat) (h : s < 64) : b64EncVal s ≠ 61 := by
  unfold b64EncVal
  split_ifs <;> omega

/-- Base64 decoding inverts base64 encoding on every byte sequence. -/
theorem b64_decode_encode (l : List Nat) (hb : ∀ b ∈ l, b < 256) :
    b64Decode (b64Encode l) = l := by
  induction l using b64Encode.induct with
  | case1 => rfl
  | case2 b1 =>
    have h1 : b1 < 256 := hb b1 (by simp)
    simp only [b64Encode, b64Decode, if_true]
    rw [b64_decVal_encVal _ (by omega), b64_decVal_encVal _ (by omega)]
    have e1 : b1 / 4 * 4 + b1 % 4 * 16 / 16 = b1 := by omega
    rw [e1]
  | case3 b1 b2 =>
    have h1 : b1 < 256 := hb b1 (by simp)
    have h2 : b2 < 256 := hb b2 (by simp)
    simp only [b64Encode, b64Decode]
    rw [if_neg (b64_encVal_ne_pad _ (by omega))]
    simp only [if_true]
    rw [b64_decVal_encVal _ (by omega), b64_decVal_encVal _ (by omega),
      b64_decVal_encVal _ (by omega)]
    have e1 : b1 / 4 * 4 + (b1 % 4 * 16 + b2 / 16) / 16 = b1 := by omega
    have e2 : (b1 % 4 * 16 + b2 / 16) % 16 * 16 + b2 % 16 * 4 / 4 = b2 := by
      omega
    rw [e1, e2]
  | case4 b1 b2 b3 rest ih =>
    have h1 : b1 < 256 := hb b1 (by simp)
    have h2 : b2 < 256 := hb b2 (by simp)
    have h3 : b3 < 256 := hb b3 (by simp)
    have hrest : ∀ b ∈ rest, b < 256 := fun b h => hb b (by simp [h])
    simp only [b64Encode, b64Decode]
    rw [if_neg (b64_encVal_ne_pad _ (by omega)),
      if_neg (b64_encVal_ne_pad _ (by omega))]
    rw [b64_decVal_encVal _ (by omega), b64_decVal_encVal _ (by omega),
      b64_decVal_encVal _ (by omega), b64_decVal_encVal _ (by omega)]
    rw [ih hrest]
    have e1 : b1 / 4 * 4 + (b1 % 4 * 16 + b2 / 16) / 16 = b1 := by omega
    have e2 : (b1 % 4 * 16 + b2 / 16) % 16 * 16 +
        (b2 % 16 * 4 + b3 / 64) / 4 = b2 := by omega
    have e3 : (b2 % 16 * 4 + b3 / 64) % 4 * 64 + b3 % 64 = b3 := by omega
    rw [e1, e2, e3]

/-- C2: starting from a fresh document holding only the identity field,
applying via update the specs set a:=1,b:=2, then unset a, then set c:=3
returns the document with identity normalized to the string form together
with b=2 and c=3, both synchronously before any flush and as the backend
document after flush. -/
theorem update_composition_set_unset_set :
    ((updateDM (.vInt 1) ⟨[("c", .vInt 3)], []⟩ "test.test" 1
      (updateDM (.vInt 1) ⟨[], ["a"]⟩ "test.test" 1
        (updateDM (.vInt 1) ⟨[("a", .vInt 1), ("b", .vInt 2)], []⟩ "test.test" 1
          (upsertDM [("_id", .vInt 1)] "test.test" 1 initState)).1).1).2
      = some [("_id", .vStr "1"), ("b", .vInt 2), ("c", .vInt 3)]) ∧
    ((commitDM (updateDM (.vInt 1) ⟨[("c", .vInt 3)], []⟩ "test.test" 1
      (updateDM (.vInt 1) ⟨[], ["a"]⟩ "test.test" 1
        (updateDM (.vInt 1) ⟨[("a", .vInt 1), ("b", .vInt 2)], []⟩ "test.test" 1
          (upsertDM [("_id", .vInt 1)] "test.test" 1 initState)).1).1).1).backend
      = { store := [(⟨"test.test", "1"⟩,
            ⟨[("_id", .vStr "1"), ("b", .vInt 2), ("c", .vInt 3)], 1, 0⟩)],
          visible := [⟨"test.test", "1"⟩] }) := by
  exact ⟨by decide, by decide⟩

/-- C10: malformed configuration is rejected at construction time with
InvalidConfiguration before any buffering starts: an aws option without
the AWS extension fails construction, convert_aws_args rejects any
non-dict argument, and every successful construction starts with an empty
buffer and no backend call issued. -/
theorem invalid_configuration_rejected :
    (∀ url a, docManagerInit url (some a) false
      = .error (.invalidConfiguration "aws extras must be installed")) ∧
    (∀ s, convert_aws_args (.pyStr s)
      = .error (.invalidConfiguration "aws args must be a dict")) ∧
    (∀ n, convert_aws_args (.pyInt n)
      = .error (.invalidConfiguration "aws args must be a dict")) ∧
    (∀ url aws hasAws cfg st, docManagerInit url aws hasAws = .ok (cfg, st) →
      st.buffer = [] ∧ st.trace = []) := by
  refine ⟨fun url a => rfl, fun s => rfl, fun n => rfl,
    fun url aws hasAws cfg st h => ?_⟩
  match aws with
  | none =>
    simp only [docManagerInit, Except.ok.injEq, Prod.mk.injEq] at h
    rw [← h.2]
    exact ⟨rfl, rfl⟩
  | some a =>
    simp only [docManagerInit] at h
    split at h
    · cases hc : convert_aws_args a with
      | ok v =>
        rw [hc] at h
        simp only [Except.ok.injEq, Prod.mk.injEq] at h
        rw [← h.2]
        exact ⟨rfl, rfl⟩
      | error e =>
        rw [hc] at h
        exact absurd h (by simp)
    · exact absurd h (by simp)

/-- C10 witness: a concrete rejected construction and a concrete successful
construction with an empty starting buffer. -/
theorem invalid_configuration_rejected_witness :
    (docManagerInit "host:9200" (some (.pyDict [])) false
      = .error (.invalidConfiguration "aws extras must be installed")) ∧
    (convert_aws_args (.pyStr "not_dict")
      = .error (.invalidConfiguration "aws args must be a dict")) ∧
    initState.buffer = [] := by
  refine ⟨invalid_configuration_rejected.1 "host:9200" (.pyDict []),
    invalid_configuration_rejected.2.1 "not_dict",
    (invalid_configuration_rejected.2.2.2 "host:9200" none false
      ⟨"host:9200", false⟩ initState rfl).1⟩

/-- Flushing a concatenation of batches flushes the first batch and then
the second. -/
theorem flushStore_append (l1 l2 : List (Ident × BufEntry))
    (acc : List (Ident × StoredDoc) × Nat) :
    flushStore (l1 ++ l2) acc = flushStore l2 (flushStore l1 acc) := by
  induction l1 generalizing acc with
  | nil => rfl
  | cons p rest ih =>
    obtain ⟨st, sq⟩ := acc
    simp only [List.cons_append, flushStore]
    exact ih _

/-- C8: for every binary payload, insert_file places the base64-encoded
payload in the document body that reaches the backend, and decoding the
encoded field recovers the payload byte for byte. -/
theorem insert_file_binary_roundtrip (meta : Doc) (data : List Nat)
    (ts : Nat) (hb : ∀ b ∈ data, b < 256) :
    ((commitDM (insertFileDM meta data "test.test" ts
        initState)).backend.store.map (fun p => getField p.2.doc "content"))
      = [some (.vBytes (b64Encode data))] ∧
    b64Decode (b64Encode data) = data := by
  refine ⟨?_, b64_decode_encode data hb⟩
  have hstore : (commitDM (insertFileDM meta data "test.test" ts
      initState)).backend.store
      = [(identOfDoc (setField meta "content" (.vBytes (b64Encode data)))
            "test.test",
          ⟨normalizeDoc (setField meta "content" (.vBytes (b64Encode data))),
           ts, 0⟩)] := by
    simp [insertFileDM, upsertDM, commitDM, sendBuffer, refreshDM, initState,
      enqueueBuf, flushStore, applyEntryToStore]
  rw [hstore]
  simp only [List.map_cons, List.map_nil]
  rw [getField_normalizeDoc_other _ _ (by decide), getField_setField_self]

/-- C8 witness: a concrete five-byte payload buffered through insert_file
reaches the backend base64-encoded and decodes back to itself. -/
theorem insert_file_binary_roundtrip_witness :
    ((commitDM (insertFileDM [("_id", .vStr "f1")] [104, 101, 108, 108, 111]
        "test.test" 5 initState)).backend.store.map
        (fun p => getField p.2.doc "content"))
      = [some (.vBytes (b64Encode [104, 101, 108, 108, 111]))] ∧
    b64Decode (b64Encode [104, 101, 108, 108, 111])
      = [104, 101, 108, 108, 111] :=
  insert_file_binary_roundtrip [("_id", .vStr "f1")]
    [104, 101, 108, 108, 111] 5 (by decide)

/-- C1: handle_command for a destructive command (drop of a collection, or
dropDatabase) first drains and flushes the Write Buffer to the backend and
only then issues the destructive call: the backend trace records the bulk
write of the whole buffered batch and the visibility refresh strictly
before the drop; afterwards the buffer holds no entry at all (in
particular none for the affected namespaces) and the backend holds no
document in an affected namespace. -/
theorem flush_before_destructive_command (s : DMState) (ns coll : String)
    (ts : Nat) :
    ((handleCommandDM (.drop coll) ns ts s).buffer = [] ∧
     (∀ p ∈ (handleCommandDM (.drop coll) ns ts s).backend.store,
        p.1.ns ≠ dbOf ns ++ "." ++ coll) ∧
     (handleCommandDM (.drop coll) ns ts s).trace
       = s.trace ++
         (if s.buffer.isEmpty then [] else [.evBulkWrite s.buffer]) ++
         [.evRefresh, .evDropNamespace (dbOf ns ++ "." ++ coll)]) ∧
    ((handleCommandDM .dropDatabase ns ts s).buffer = [] ∧
     (∀ p ∈ (handleCommandDM .dropDatabase ns ts s).backend.store,
        dbOf p.1.ns ≠ dbOf ns) ∧
     (handleCommandDM .dropDatabase ns ts s).trace
       = s.trace ++
         (if s.buffer.isEmpty then [] else [.evBulkWrite s.buffer]) ++
         [.evRefresh, .evDropDatabase (dbOf ns)]) := by
  constructor
  · refine ⟨rfl, ?_, ?_⟩
    · intro p hp
      have hmem : p ∈ ((commitDM s).backend.store.filter
          (fun q => q.1.ns != dbOf ns ++ "." ++ coll)) := hp
      have := (List.mem_filter.mp hmem).2
      simpa using this
    · show (if s.buffer.isEmpty then s.trace
          else s.trace ++ [BackendEvent.evBulkWrite s.buffer])
          ++ [BackendEvent.evRefresh]
          ++ [BackendEvent.evDropNamespace (dbOf ns ++ "." ++ coll)] = _
      by_cases hb : s.buffer.isEmpty <;> simp [hb]
  · refine ⟨rfl, ?_, ?_⟩
    · intro p hp
      have hmem : p ∈ ((commitDM s).backend.store.filter
          (fun q => dbOf q.1.ns != dbOf ns)) := hp
      have := (List.mem_filter.mp hmem).2
      simpa using this
    · show (if s.buffer.isEmpty then s.trace
          else s.trace ++ [BackendEvent.evBulkWrite s.buffer])
          ++ [BackendEvent.evRefresh]
          ++ [BackendEvent.evDropDatabase (dbOf ns)] = _
      by_cases hb : s.buffer.isEmpty <;> simp [hb]

/-- C4: enqueuing a Remove for an identity discards every other buffered
operation for that identity (the only surviving buffered entry for it is
the tombstone), the document is absent from the backend after flush, and a
subsequent re-upsert buffers exactly the fresh document, so no stale
buffered state is resurrected. -/
theorem remove_discards_buffered_state (s : DMState) (docId : Value)
    (ns : String) (ts ts2 : Nat) (d : Doc)
    (hid : docIdOf d = valueToIdStr docId) :
    (∀ p ∈ (removeDM docId ns ts s).buffer,
       p.1 = (⟨ns, valueToIdStr docId⟩ : Ident) → p.2 = .bRemove ts) ∧
    (∀ q ∈ (commitDM (removeDM docId ns ts s)).backend.store,
       q.1 ≠ (⟨ns, valueToIdStr docId⟩ : Ident)) ∧
    ((upsertDM d ns ts2 (removeDM docId ns ts s)).buffer.find?
       (fun p => p.1 == (⟨ns, valueToIdStr docId⟩ : Ident))
       = some (⟨ns, valueToIdStr docId⟩,
               .bUpsert (normalizeDoc d) ts2)) := by
  refine ⟨?_, ?_, ?_⟩
  · intro p hp hpi
    have hp2 : p ∈ s.buffer.filter
        (fun q => q.1 != (⟨ns, valueToIdStr docId⟩ : Ident))
        ++ [((⟨ns, valueToIdStr docId⟩ : Ident), BufEntry.bRemove ts)] := hp
    rcases List.mem_append.mp hp2 with hl | hr
    · have := (List.mem_filter.mp hl).2
      simp [hpi] at this
    · rcases List.mem_singleton.mp hr with rfl
      rfl
  · intro q hq
    have hstore : (commitDM (removeDM docId ns ts s)).backend.store
        = (flushStore
            [((⟨ns, valueToIdStr docId⟩ : Ident), BufEntry.bRemove ts)]
            (flushStore (s.buffer.filter
              (fun p => p.1 != (⟨ns, valueToIdStr docId⟩ : Ident)))
              (s.backend.store, s.nextSeq))).1 := by
      show (flushStore (s.buffer.filter
          (fun p => p.1 != (⟨ns, valueToIdStr docId⟩ : Ident))
          ++ [((⟨ns, valueToIdStr docId⟩ : Ident), BufEntry.bRemove ts)])
          (s.backend.store, s.nextSeq)).1 = _
      rw [flushStore_append]
    rw [hstore] at hq
    rcases hacc : flushStore (s.buffer.filter
        (fun p => p.1 != (⟨ns, valueToIdStr docId⟩ : Ident)))
        (s.backend.store, s.nextSeq) with ⟨st1, sq1⟩
    rw [hacc] at hq
    simp only [flushStore, applyEntryToStore] at hq
    have := (List.mem_filter.mp hq).2
    simpa using this
  · show ((removeDM docId ns ts s).buffer.filter
        (fun p => p.1 != identOfDoc d ns)
        ++ [(identOfDoc d ns, BufEntry.bUpsert (normalizeDoc d) ts2)]).find?
        (fun p => p.1 == (⟨ns, valueToIdStr docId⟩ : Ident)) = _
    have hi : identOfDoc d ns = (⟨ns, valueToIdStr docId⟩ : Ident) := by
      simp [identOfDoc, hid]
    rw [hi, List.find?_append]
    have hnone : ((removeDM docId ns ts s).buffer.filter
        (fun p => p.1 != (⟨ns, valueToIdStr docId⟩ : Ident))).find?
        (fun p => p.1 == (⟨ns, valueToIdStr docId⟩ : Ident)) = none := by
      rw [List.find?_eq_none]
      intro x hx
      have := (List.mem_filter.mp hx).2
      simpa using this
    rw [hnone]
    simp [List.find?]

/-- C4 witness: removing a concretely buffered document leaves only the
tombstone for its identity, flushing leaves no backend copy, and a fresh
re-upsert buffers exactly the fresh document. -/
theorem remove_discards_buffered_state_witness :
    docIdOf [("_id", .vStr "1"), ("name", .vStr "X")]
      = valueToIdStr (.vStr "1") ∧
    (∀ q ∈ (commitDM (removeDM (.vStr "1") "test.test" 2
        (upsertDM [("_id", .vStr "1"), ("name", .vStr "John")] "test.test" 1
          initState))).backend.store,
      q.1 ≠ (⟨"test.test", "1"⟩ : Ident)) :=
  ⟨rfl,
   (remove_discards_buffered_state
      (upsertDM [("_id", .vStr "1"), ("name", .vStr "John")] "test.test" 1
        initState)
      (.vStr "1") "test.test" 2 3 [("_id", .vStr "1"), ("name", .vStr "X")]
      rfl).2.1⟩

/-- After an enqueue, the target identity has exactly one buffered
entry. -/
theorem count_enqueue_self (i : Ident) (e : BufEntry)
    (b : List (Ident × BufEntry)) :
    ((enqueueBuf i e b).filter (fun p => p.1 == i)).length = 1 := by
  unfold enqueueBuf
  rw [List.filter_append, List.filter_filter]
  have h1 : b.filter (fun a => a.1 == i && a.1 != i) = [] := by
    rw [List.filter_eq_nil_iff]
    intro a _
    by_cases h : a.1 = i <;> simp [h]
  rw [h1]
  simp [List.filter]

/-- An enqueue does not increase the number of buffered entries of any
other identity. -/
theorem count_enqueue_other (i j : Ident) (e : BufEntry)
    (b : List (Ident × BufEntry)) (hij : j ≠ i) :
    ((enqueueBuf i e b).filter (fun p => p.1 == j)).length
      ≤ (b.filter (fun p => p.1 == j)).length := by
  unfold enqueueBuf
  rw [List.filter_append]
  have h1 : ([((i : Ident), e)].filter (fun p => p.1 == j)) = [] := by
    have hbe : (i == j) = false := beq_eq_false_iff_ne.mpr fun h => hij h.symm
    simp [List.filter, hbe]
  rw [h1, List.append_nil]
  exact ((List.filter_sublist b).filter _).length_le

/-- Enqueue preserves at-most-one-entry-per-identity. -/
theorem buffUnique_enqueue (i : Ident) (e : BufEntry)
    (b : List (Ident × BufEntry)) (h : buffUnique b) :
    buffUnique (enqueueBuf i e b) := by
  intro j
  by_cases hj : j = i
  · subst hj
    rw [count_enqueue_self]
  · exact le_trans (count_enqueue_other i j e b hj) (h j)

/-- Any filtering of the buffer preserves at-most-one-entry-per-identity. -/
theorem buffUnique_filter (q : Ident × BufEntry → Bool)
    (b : List (Ident × BufEntry)) (h : buffUnique b) :
    buffUnique (b.filter q) := by
  intro j
  exact le_trans ((List.filter_sublist b).filter _).length_le (h j)

/-- The empty buffer has at most one entry per identity. -/
theorem buffUnique_nil : buffUnique [] := by
  intro j
  simp [List.filter]

/-- An update either leaves the buffer unchanged (no source found) or
re-enqueues the merged entry for the target identity. -/
theorem updateDM_buffer (docId : Value) (spec : UpdateSpec) (ns : String)
    (ts : Nat) (s : DMState) :
    ((updateDM docId spec ns ts s).1.buffer = s.buffer) ∨
    (∃ e, (updateDM docId spec ns ts s).1.buffer
      = enqueueBuf ⟨ns, valueToIdStr docId⟩ e s.buffer) := by
  rcases h : cachedDocFor ⟨ns, valueToIdStr docId⟩ s with _ | d
  · exact Or.inl (by simp [updateDM, h])
  · exact Or.inr ⟨.bUpsert (normalizeDoc (applyUpdate spec d)) ts,
      by simp [updateDM, h]⟩

/-- Bulk upsert folds enqueues over the buffer and touches nothing else. -/
theorem bulkUpsertDM_buffer (docs : List Doc) (ns : String) (ts : Nat)
    (s : DMState) :
    (bulkUpsertDM docs ns ts s).buffer
      = docs.foldl (fun acc d =>
          enqueueBuf (identOfDoc d ns) (.bUpsert (normalizeDoc d) ts) acc)
        s.buffer := by
  induction docs generalizing s with
  | nil => rfl
  | cons d rest ih =>
    show (bulkUpsertDM rest ns ts (upsertDM d ns ts s)).buffer = _
    rw [ih]
    rfl

/-- Bulk upsert leaves the backend, the sequence counter and the trace
unchanged. -/
theorem bulkUpsertDM_rest (docs : List Doc) (ns : String) (ts : Nat)
    (s : DMState) :
    (bulkUpsertDM docs ns ts s).backend = s.backend ∧
    (bulkUpsertDM docs ns ts s).nextSeq = s.nextSeq ∧
    (bulkUpsertDM docs ns ts s).trace = s.trace := by
  induction docs generalizing s with
  | nil => exact ⟨rfl, rfl, rfl⟩
  | cons d rest ih => exact ih (upsertDM d ns ts s)

/-- Folding enqueues over a buffer preserves
at-most-one-entry-per-identity. -/
theorem buffUnique_foldl_enqueue (ns : String) (ts : Nat) :
    ∀ (docs : List Doc) (b : List (Ident × BufEntry)), buffUnique b →
    buffUnique (docs.foldl (fun acc d =>
      enqueueBuf (identOfDoc d ns) (.bUpsert (normalizeDoc d) ts) acc) b)
  | [], _, h => h
  | _ :: rest, _, h =>
    buffUnique_foldl_enqueue ns ts rest _ (buffUnique_enqueue _ _ _ h)

/-- Every public operation of the Operation Coordinator preserves
at-most-one-buffered-entry-per-identity. -/
theorem buffUnique_applyPublic (op : PublicOp) (s : DMState)
    (h : buffUnique s.buffer) : buffUnique (applyPublic op s).buffer := by
  cases op with
  | opUpsert d ns ts => exact buffUnique_enqueue _ _ _ h
  | opBulkUpsert docs ns ts =>
    show buffUnique (bulkUpsertDM docs ns ts s).buffer
    rw [bulkUpsertDM_buffer]
    exact buffUnique_foldl_enqueue ns ts docs s.buffer h
  | opUpdate docId spec ns ts =>
    rcases updateDM_buffer docId spec ns ts s with heq | ⟨e, heq⟩
    · show buffUnique (updateDM docId spec ns ts s).1.buffer
      rw [heq]; exact h
    · show buffUnique (updateDM docId spec ns ts s).1.buffer
      rw [heq]; exact buffUnique_enqueue _ _ _ h
  | opRemove docId ns ts => exact buffUnique_enqueue _ _ _ h
  | opInsertFile m data ns ts => exact buffUnique_enqueue _ _ _ h
  | opCommit => exact buffUnique_nil
  | opSend => exact buffUnique_nil
  | opHandleCommand cmd ns ts =>
    cases cmd with
    | create c => exact h
    | drop c => exact buffUnique_filter _ _ buffUnique_nil
    | dropDatabase => exact buffUnique_filter _ _ buffUnique_nil
    | unknownCmd => exact h

/-- C9: upserting the same identity twice before any flush leaves exactly
one buffered entry, the later write superseding the earlier, and exactly
one backend document for that identity after flush; moreover every public
operation preserves the invariant that the buffer holds at most one entry
per Document Identity. -/
theorem reupsert_single_buffer_entry :
    (∀ (d : Doc) (ns : String) (ts1 ts2 : Nat),
      (upsertDM d ns ts2 (upsertDM d ns ts1 initState)).buffer
        = [(identOfDoc d ns, .bUpsert (normalizeDoc d) ts2)] ∧
      (commitDM (upsertDM d ns ts2
          (upsertDM d ns ts1 initState))).backend.store
        = [(identOfDoc d ns, ⟨normalizeDoc d, ts2, 0⟩)]) ∧
    (∀ (op : PublicOp) (s : DMState), buffUnique s.buffer →
      buffUnique (applyPublic op s).buffer) := by
  constructor
  · intro d ns ts1 ts2
    have hbuf : (upsertDM d ns ts2 (upsertDM d ns ts1 initState)).buffer
        = [(identOfDoc d ns, .bUpsert (normalizeDoc d) ts2)] := by
      show enqueueBuf (identOfDoc d ns) _
        (enqueueBuf (identOfDoc d ns) _ []) = _
      simp [enqueueBuf, List.filter]
    refine ⟨hbuf, ?_⟩
    show (flushStore
        (upsertDM d ns ts2 (upsertDM d ns ts1 initState)).buffer
        ((upsertDM d ns ts2 (upsertDM d ns ts1 initState)).backend.store,
         (upsertDM d ns ts2 (upsertDM d ns ts1 initState)).nextSeq)).1 = _
    rw [hbuf]
    simp [flushStore, applyEntryToStore, upsertDM, initState, List.filter]
  · exact fun op s h => buffUnique_applyPublic op s h

/-- C9 witness: a concrete double upsert leaves one buffered entry and one
backend document, and the uniqueness invariant holds after a concrete
public operation on the fresh engine. -/
theorem reupsert_single_buffer_entry_witness :
    ((upsertDM [("_id", .vStr "1")] "test.test" 5
        (upsertDM [("_id", .vStr "1")] "test.test" 4 initState)).buffer
      = [(identOfDoc [("_id", .vStr "1")] "test.test",
          .bUpsert (normalizeDoc [("_id", .vStr "1")]) 5)]) ∧
    buffUnique (applyPublic (.opRemove (.vStr "2") "test.test" 6)
      initState).buffer :=
  ⟨(reupsert_single_buffer_entry.1 [("_id", .vStr "1")] "test.test" 4 5).1,
   reupsert_single_buffer_entry.2 (.opRemove (.vStr "2") "test.test" 6)
     initState buffUnique_nil⟩

/-- The document body carried by a buffered entry (empty for a
tombstone). -/
def entryDoc : BufEntry → Doc
  | .bUpsert d _ => d
  | .bRemove _ => []

/-- Folding enqueues of documents with pairwise distinct identities over a
buffer disjoint from them appends one entry per document. -/
theorem foldl_enqueue_nodup (ns : String) (ts : Nat) (docs : List Doc) :
    ∀ b : List (Ident × BufEntry),
    (docs.map (fun d => identOfDoc d ns)).Nodup →
    (∀ p ∈ b, ∀ d ∈ docs, p.1 ≠ identOfDoc d ns) →
    docs.foldl (fun acc d =>
        enqueueBuf (identOfDoc d ns) (.bUpsert (normalizeDoc d) ts) acc) b
      = b ++ docs.map (fun d =>
          (identOfDoc d ns, BufEntry.bUpsert (normalizeDoc d) ts)) := by
  induction docs with
  | nil => intro b _ _; simp
  | cons d rest ih =>
    intro b hnd hdis
    rw [List.map_cons, List.nodup_cons] at hnd
    have hfil : b.filter (fun p => p.1 != identOfDoc d ns) = b := by
      rw [List.filter_eq_self]
      intro p hp
      simpa using hdis p hp d (by simp)
    have henq : enqueueBuf (identOfDoc d ns)
        (BufEntry.bUpsert (normalizeDoc d) ts) b
        = b ++ [(identOfDoc d ns, BufEntry.bUpsert (normalizeDoc d) ts)] := by
      rw [enqueueBuf, hfil]
    have hdis2 : ∀ p ∈ b ++ [(identOfDoc d ns,
        BufEntry.bUpsert (normalizeDoc d) ts)],
        ∀ d2 ∈ rest, p.1 ≠ identOfDoc d2 ns := by
      intro p hp d2 hd2
      rcases List.mem_append.mp hp with hl | hr
      · exact hdis p hl d2 (by simp [hd2])
      · rcases List.mem_singleton.mp hr with rfl
        intro hcontra
        have hc2 : identOfDoc d ns = identOfDoc d2 ns := hcontra
        apply hnd.1
        rw [hc2]
        exact List.mem_map.mpr ⟨d2, hd2, rfl⟩
    rw [List.foldl_cons, henq, ih _ hnd.2 hdis2]
    simp

/-- Flushing a batch of upserts with pairwise distinct identities into a
store disjoint from them appends one stored document per entry. -/
theorem flushStore_upserts_map (l : List (Ident × BufEntry)) :
    ∀ (st : List (Ident × StoredDoc)) (sq : Nat),
    (l.map (fun p => p.1)).Nodup →
    (∀ q ∈ st, ∀ p ∈ l, q.1 ≠ p.1) →
    (∀ p ∈ l, ∃ d dts, p.2 = BufEntry.bUpsert d dts) →
    (flushStore l (st, sq)).1.map (fun q => (q.1, q.2.doc))
      = st.map (fun q => (q.1, q.2.doc))
        ++ l.map (fun p => (p.1, entryDoc p.2)) := by
  induction l with
  | nil => intro st sq _ _ _; simp [flushStore]
  | cons p rest ih =>
    intro st sq hnd hdis hup
    obtain ⟨d, dts, hpe⟩ := hup p (by simp)
    rw [List.map_cons, List.nodup_cons] at hnd
    have hfil : st.filter (fun q => q.1 != p.1) = st := by
      rw [List.filter_eq_self]
      intro q hq
      simpa using hdis q hq p (by simp)
    have happ : applyEntryToStore st sq p
        = st ++ [(p.1, ⟨d, dts, sq⟩)] := by
      simp [applyEntryToStore, hpe, hfil]
    have hdis2 : ∀ q ∈ st ++ [(p.1, (⟨d, dts, sq⟩ : StoredDoc))],
        ∀ p2 ∈ rest, q.1 ≠ p2.1 := by
      intro q hq p2 hp2
      rcases List.mem_append.mp hq with hl | hr
      · exact hdis q hl p2 (by simp [hp2])
      · rcases List.mem_singleton.mp hr with rfl
        intro hcontra
        have hc2 : p.1 = p2.1 := hcontra
        apply hnd.1
        rw [hc2]
        exact List.mem_map.mpr ⟨p2, hp2, rfl⟩
    have hup2 : ∀ p2 ∈ rest, ∃ d2 dts2, p2.2 = BufEntry.bUpsert d2 dts2 :=
      fun p2 hp2 => hup p2 (by simp [hp2])
    rw [flushStore, happ, ih _ _ hnd.2 hdis2 hup2]
    simp [hpe, entryDoc]

/-- C6: bulk_upsert of an empty input is a complete no-op (no buffered
entry, no trace of a backend call, state unchanged); bulk_upsert of any
sequence of documents with pairwise distinct identities followed by a
flush yields exactly one backend document per input, bodies matching the
inputs one-to-one with no duplicates or drops, all visible. -/
theorem bulk_upsert_empty_and_flush :
    (∀ (ns : String) (ts : Nat) (s : DMState),
      bulkUpsertDM [] ns ts s = s) ∧
    (∀ (docs : List Doc) (ns : String) (ts : Nat),
      (docs.map (fun d => identOfDoc d ns)).Nodup →
      ((commitDM (bulkUpsertDM docs ns ts initState)).backend.store.map
          (fun q => (q.1, q.2.doc))
        = docs.map (fun d => (identOfDoc d ns, normalizeDoc d))) ∧
      ((commitDM (bulkUpsertDM docs ns ts initState)).backend.store.length
        = docs.length) ∧
      ((commitDM (bulkUpsertDM docs ns ts initState)).backend.visible
        = (commitDM (bulkUpsertDM docs ns ts
            initState)).backend.store.map (fun q => q.1))) := by
  refine ⟨fun ns ts s => rfl, ?_⟩
  intro docs ns ts hnd
  have hbuf : (bulkUpsertDM docs ns ts initState).buffer
      = docs.map (fun d =>
          (identOfDoc d ns, BufEntry.bUpsert (normalizeDoc d) ts)) := by
    rw [bulkUpsertDM_buffer]
    have := foldl_enqueue_nodup ns ts docs [] hnd (by intro p hp; simp at hp)
    simpa using this
  have hrest := bulkUpsertDM_rest docs ns ts initState
  have hstore : (commitDM (bulkUpsertDM docs ns ts initState)).backend.store
      = (flushStore (docs.map (fun d =>
          (identOfDoc d ns, BufEntry.bUpsert (normalizeDoc d) ts)))
          ([], 0)).1 := by
    show (flushStore (bulkUpsertDM docs ns ts initState).buffer
        ((bulkUpsertDM docs ns ts initState).backend.store,
         (bulkUpsertDM docs ns ts initState).nextSeq)).1 = _
    rw [hbuf, hrest.1, hrest.2.1]
    rfl
  have hmap : (flushStore (docs.map (fun d =>
      (identOfDoc d ns, BufEntry.bUpsert (normalizeDoc d) ts)))
      ([], 0)).1.map (fun q => (q.1, q.2.doc))
      = docs.map (fun d => (identOfDoc d ns, normalizeDoc d)) := by
    rw [flushStore_upserts_map _ [] 0 ?hn (by intro q hq; simp at hq) ?hu]
    · rw [List.map_nil, List.nil_append, List.map_map]
      rfl
    case hn => rw [List.map_map]; exact hnd
    case hu =>
      intro p hp
      rcases List.mem_map.mp hp with ⟨d2, _, rfl⟩
      exact ⟨normalizeDoc d2, ts, rfl⟩
  refine ⟨by rw [hstore]; exact hmap, ?_, rfl⟩
  have hlen := congrArg List.length (hstore ▸ hmap :
    (commitDM (bulkUpsertDM docs ns ts initState)).backend.store.map
      (fun q => (q.1, q.2.doc)) = _)
  simpa using hlen

/-- C6 witness: three concrete documents with distinct identities flushed
through bulk_upsert appear exactly once each in the backend. -/
theorem bulk_upsert_empty_and_flush_witness :
    bulkUpsertDM [] "test.test" 1 initState = initState ∧
    ((commitDM (bulkUpsertDM
        [[("_id", .vStr "0"), ("weight", .vInt 0)],
         [("_id", .vStr "1"), ("weight", .vInt 2)],
         [("_id", .vStr "2"), ("weight", .vInt 4)]]
        "test.test" 1 initState)).backend.store.length = 3) :=
  ⟨bulk_upsert_empty_and_flush.1 "test.test" 1 initState,
   (bulk_upsert_empty_and_flush.2
      [[("_id", .vStr "0"), ("weight", .vInt 0)],
       [("_id", .vStr "1"), ("weight", .vInt 2)],
       [("_id", .vStr "2"), ("weight", .vInt 4)]]
      "test.test" 1 (by decide)).2.1⟩

/-- The fold used by get_last_doc returns the entry that strictly
dominates every other candidate in the timestamp-then-sequence order. -/
theorem foldl_laterEntry_dominant (l : List (Ident × StoredDoc)) :
    ∀ (acc p : Ident × StoredDoc),
    (p = acc ∨ p ∈ l) →
    (∀ q, (q = acc ∨ q ∈ l) → q ≠ p →
      q.2.ts < p.2.ts ∨ (q.2.ts = p.2.ts ∧ q.2.seq < p.2.seq)) →
    l.foldl (fun best q => if laterEntry best q then q else best) acc = p := by
  induction l with
  | nil =>
    intro acc p hp _
    rcases hp with rfl | hmem
    · rfl
    · exact absurd hmem (List.not_mem_nil p)
  | cons x rest ih =>
    intro acc p hp hdom
    rw [List.foldl_cons]
    have hacc2 : (if laterEntry acc x then x else acc) = x ∨
        (if laterEntry acc x then x else acc) = acc := by
      by_cases hl : laterEntry acc x <;> simp [hl]
    apply ih
    · rcases hp with rfl | hpx
      · left
        by_cases hx : x = p
        · subst hx
          by_cases hl : laterEntry x x <;> simp [hl]
        · have hd := hdom x (Or.inr (by simp)) hx
          have hfalse : laterEntry p x = false := by
            simp only [laterEntry, decide_eq_false_iff_not]
            rcases hd with h1 | ⟨h1, h2⟩ <;> omega
          simp [hfalse]
      · rcases List.mem_cons.mp hpx with rfl | hprest
        · left
          by_cases hacc : acc = p
          · subst hacc
            by_cases hl : laterEntry acc acc <;> simp [hl]
          · have hd := hdom acc (Or.inl rfl) hacc
            have htrue : laterEntry acc p = true := by
              simp only [laterEntry, decide_eq_true_eq]
              exact hd
            simp [htrue]
        · exact Or.inr hprest
    · intro q hq hqp
      apply hdom q _ hqp
      rcases hq with rfl | hqrest
      · rcases hacc2 with h | h <;> rw [h]
        · exact Or.inr (by simp)
        · exact Or.inl rfl
      · exact Or.inr (by simp [hqrest])

/-- C7: get_last_doc returns nothing when no backend document is visible,
and otherwise returns the document of the entry with the maximum
modification timestamp, ties on timestamp broken in favor of the entry
with the larger upsert sequence number (the most recently upserted
identity). -/
theorem get_last_doc_max_timestamp :
    (∀ s : DMState, visibleDocs s = [] → getLastDocDM s = none) ∧
    (∀ (s : DMState) (p : Ident × StoredDoc), p ∈ visibleDocs s →
      (∀ q ∈ visibleDocs s, q ≠ p →
        q.2.ts < p.2.ts ∨ (q.2.ts = p.2.ts ∧ q.2.seq < p.2.seq)) →
      getLastDocDM s = some p.2.doc) := by
  constructor
  · intro s h
    unfold getLastDocDM
    rw [h]
  · intro s p hp hdom
    unfold getLastDocDM
    rcases hv : visibleDocs s with _ | ⟨x, rest⟩
    · rw [hv] at hp
      exact absurd hp (List.not_mem_nil p)
    · rw [hv] at hp hdom
      have hfold := foldl_laterEntry_dominant rest x p ?hmem ?hdom2
      · show some ((rest.foldl
            (fun best q => if laterEntry best q then q else best) x).2.doc)
            = some p.2.doc
        rw [hfold]
      case hmem =>
        rcases List.mem_cons.mp hp with rfl | hprest
        · exact Or.inl rfl
        · exact Or.inr hprest
      case hdom2 =>
        intro q hq hqp
        apply hdom q _ hqp
        rcases hq with rfl | hqrest
        · simp
        · simp [hqrest]

/-- C7 witness: on an empty backend get_last_doc returns nothing; after
two upserts sharing one timestamp are flushed, the tie is broken in favor
of the most recently upserted identity. -/
theorem get_last_doc_max_timestamp_witness :
    getLastDocDM initState = none ∧
    getLastDocDM (commitDM (upsertDM [("_id", .vStr "6")] "test.test" 5
        (upsertDM [("_id", .vStr "4")] "test.test" 5 initState)))
      = some [("_id", .vStr "6")] := by
  constructor
  · exact get_last_doc_max_timestamp.1 initState rfl
  · exact get_last_doc_max_timestamp.2
      (commitDM (upsertDM [("_id", .vStr "6")] "test.test" 5
        (upsertDM [("_id", .vStr "4")] "test.test" 5 initState)))
      (⟨"test.test", "6"⟩, ⟨[("_id", .vStr "6")], 5, 1⟩)
      (by decide) (by decide)

/-- There is no foreground operation at instant u when every scheduled
operation is strictly later. -/
theorem filter_single_ne (t u : Nat) (op : FgOp) (h : t ≠ u) :
    ([((t : Nat), op)].filter (fun p => p.1 == u)) = [] := by
  simp [h]

/-- At the instant of its only scheduled operation, the run applies it. -/
theorem filter_single_eq (t : Nat) (op : FgOp) :
    ([((t : Nat), op)].filter (fun p => p.1 == t)) = [(t, op)] := by
  simp

/-- An instant with no foreground operation only runs the timers. -/
theorem stepAt_nofg (cfg : SchedCfg) (ops : List (Nat × FgOp)) (t : Nat)
    (s : DMState) (h : ops.filter (fun p => p.1 == t) = []) :
    stepAt cfg ops t s =
      (if commitFires cfg.autoCommit t then
        commitDM (if sendFires cfg.autoSend t then sendBuffer s else s)
       else (if sendFires cfg.autoSend t then sendBuffer s else s)) := by
  unfold stepAt
  rw [h]
  rfl

/-- An instant with exactly one scheduled operation applies it and then
runs the timers. -/
theorem stepAt_single_self (cfg : SchedCfg) (t : Nat) (op : FgOp)
    (s : DMState) :
    stepAt cfg [(t, op)] t s =
      (if commitFires cfg.autoCommit t then
        commitDM (if sendFires cfg.autoSend t then sendBuffer (applyFg op s)
          else applyFg op s)
       else (if sendFires cfg.autoSend t then sendBuffer (applyFg op s)
          else applyFg op s)) := by
  unfold stepAt
  rw [filter_single_eq]
  rfl

/-- Whether the commit timer fired in the window ending at its left
edge reduces to whether it fires at that instant. -/
theorem firedIn_self (i : Option Nat) (t : Nat) :
    firedIn i t t = commitFires i t := by
  unfold firedIn
  rw [List.range_succ, List.any_append]
  have h1 : (List.range t).any (fun f => decide (t ≤ f) && commitFires i f)
      = false := by
    rw [List.any_eq_false]
    intro f hf
    have hlt : f < t := List.mem_range.mp hf
    simp [Nat.not_le.mpr hlt]
  rw [h1]
  simp

/-- Extending the window by one instant adds exactly that instant. -/
theorem firedIn_succ (i : Option Nat) (t u : Nat) :
    firedIn i t (u + 1)
      = (firedIn i t u || (decide (t ≤ u + 1) && commitFires i (u + 1))) := by
  unfold firedIn
  rw [List.range_succ, List.any_append]
  simp

/-- Send-timer analog of the left-edge window reduction. -/
theorem sentIn_self (i : Option Nat) (t : Nat) :
    sentIn i t t = sendFires i t := by
  unfold sentIn
  rw [List.range_succ, List.any_append]
  have h1 : (List.range t).any (fun f => decide (t ≤ f) && sendFires i f)
      = false := by
    rw [List.any_eq_false]
    intro f hf
    have hlt : f < t := List.mem_range.mp hf
    simp [Nat.not_le.mpr hlt]
  rw [h1]
  simp

/-- Send-timer analog of the window extension. -/
theorem sentIn_succ (i : Option Nat) (t u : Nat) :
    sentIn i t (u + 1)
      = (sentIn i t u || (decide (t ≤ u + 1) && sendFires i (u + 1))) := by
  unfold sentIn
  rw [List.range_succ, List.any_append]
  simp

/-- A fixed-period timer fires at least once in any window of one full
period. -/
theorem periodicFires_window (x t : Nat) (hx : 0 < x) :
    ∃ f, f ∈ List.range (t + x + 1) ∧
      (decide (t ≤ f) && periodicFires x f) = true := by
  obtain ⟨q, r, hr, hqr⟩ : ∃ q r, r < x ∧ t = x * q + r :=
    ⟨t / x, t % x, Nat.mod_lt _ hx, (Nat.div_add_mod t x).symm⟩
  refine ⟨x * q + x, List.mem_range.mpr (by omega), ?_⟩
  have hmod : (x * q + x) % x = 0 := by
    have : x * q + x = x * (q + 1) := by ring
    rw [this]
    exact Nat.mul_mod_right x (q + 1)
  simp only [periodicFires, Bool.and_eq_true, beq_iff_eq, bne_iff_ne,
    decide_eq_true_eq]
  refine ⟨by omega, hmod, by omega⟩

/-- The commit timer with positive period x fires in the window from the
upsert instant to one period later. -/
theorem firedIn_periodic (x t : Nat) (hx : 0 < x) :
    firedIn (some x) t (t + x) = true := by
  obtain ⟨x2, rfl⟩ : ∃ x2, x = x2 + 1 := ⟨x - 1, by omega⟩
  obtain ⟨f, hf, hpf⟩ := periodicFires_window (x2 + 1) t hx
  unfold firedIn
  rw [List.any_eq_true]
  exact ⟨f, hf, hpf⟩

/-- The send timer with positive period x fires in the window from the
upsert instant to one period later. -/
theorem sentIn_periodic (x t : Nat) (hx : 0 < x) :
    sentIn (some x) t (t + x) = true := by
  obtain ⟨x2, rfl⟩ : ∃ x2, x = x2 + 1 := ⟨x - 1, by omega⟩
  obtain ⟨f, hf, hpf⟩ := periodicFires_window (x2 + 1) t hx
  unfold sentIn
  rw [List.any_eq_true]
  exact ⟨f, hf, hpf⟩

/-- A disabled send timer never fires in any window. -/
theorem sentIn_disabled (i : Option Nat) (t u : Nat)
    (h : i = none ∨ i = some 0) : sentIn i t u = false := by
  unfold sentIn
  rw [List.any_eq_false]
  intro f _
  rcases h with rfl | rfl <;> simp [sendFires]

/-- Before any scheduled operation, a run only commits and sends empty
buffers, so the buffer, the store and the visible set stay empty. -/
theorem runTo_quiet (cfg : SchedCfg) (ops : List (Nat × FgOp)) :
    ∀ u, (∀ p ∈ ops, u < p.1) →
    (runTo cfg ops u).buffer = [] ∧
    (runTo cfg ops u).backend.store = [] ∧
    (runTo cfg ops u).backend.visible = [] ∧
    (runTo cfg ops u).nextSeq = 0 := by
  have hstep : ∀ t (s : DMState), s.buffer = [] → s.backend.store = [] →
      s.backend.visible = [] → s.nextSeq = 0 →
      ops.filter (fun p => p.1 == t) = [] →
      (stepAt cfg ops t s).buffer = [] ∧
      (stepAt cfg ops t s).backend.store = [] ∧
      (stepAt cfg ops t s).backend.visible = [] ∧
      (stepAt cfg ops t s).nextSeq = 0 := by
    intro t s hb hst hv hsq hfg
    rw [stepAt_nofg cfg ops t s hfg]
    by_cases hcf : commitFires cfg.autoCommit t <;>
      by_cases hsf : sendFires cfg.autoSend t <;>
        simp [hcf, hsf, commitDM, sendBuffer, refreshDM, hb, hst, hv, hsq,
          flushStore]
  intro u
  induction u with
  | zero =>
    intro h
    have hfg : ops.filter (fun p => p.1 == 0) = [] := by
      rw [List.filter_eq_nil_iff]
      intro p hp
      have := h p hp
      simp
      omega
    exact hstep 0 initState rfl rfl rfl rfl hfg
  | succ n ih =>
    intro h
    have hprev := ih (fun p hp => by have := h p hp; omega)
    have hfg : ops.filter (fun p => p.1 == n + 1) = [] := by
      rw [List.filter_eq_nil_iff]
      intro p hp
      have := h p hp
      simp
      omega
    exact hstep (n + 1) _ hprev.1 hprev.2.1 hprev.2.2.1 hprev.2.2.2 hfg

/-- The arrival instant of a single upsert on an empty engine: the write
is buffered, then sent or committed exactly as the timers fire. -/
theorem stepAt_arrival (ci si : Option Nat) (d : Doc) (ns : String)
    (ts t : Nat) (s : DMState) (hb : s.buffer = [])
    (hst : s.backend.store = []) (hv : s.backend.visible = [])
    (hsq : s.nextSeq = 0) :
    (stepAt ⟨ci, si⟩ [(t, .fgUpsert d ns ts)] t s).buffer
      = (if commitFires ci t || sendFires si t then []
         else [(identOfDoc d ns, .bUpsert (normalizeDoc d) ts)]) ∧
    (stepAt ⟨ci, si⟩ [(t, .fgUpsert d ns ts)] t s).backend.store
      = (if commitFires ci t || sendFires si t
         then [(identOfDoc d ns, ⟨normalizeDoc d, ts, 0⟩)] else []) ∧
    (stepAt ⟨ci, si⟩ [(t, .fgUpsert d ns ts)] t s).backend.visible
      = (if commitFires ci t then [identOfDoc d ns] else []) ∧
    (stepAt ⟨ci, si⟩ [(t, .fgUpsert d ns ts)] t s).nextSeq
      = (if commitFires ci t || sendFires si t then 1 else 0) := by
  rw [stepAt_single_self]
  by_cases hcf : commitFires ci t <;> by_cases hsf : sendFires si t <;>
    simp [hcf, hsf, applyFg, upsertDM, commitDM, sendBuffer, refreshDM,
      hb, hst, hv, hsq, enqueueBuf, flushStore, applyEntryToStore,
      List.filter]

/-- The full characterization of a run holding one upsert scheduled at
instant t, for every later instant: the write is buffered until a timer
fires, the store holds it exactly when a send or commit fired at or after
t, and it is visible exactly when a commit fired at or after t. -/
theorem runTo_single_upsert (ci si : Option Nat) (d : Doc) (ns : String)
    (ts t : Nat) :
    ∀ u, t ≤ u →
    (runTo ⟨ci, si⟩ [(t, .fgUpsert d ns ts)] u).buffer
      = (if firedIn ci t u || sentIn si t u then []
         else [(identOfDoc d ns, .bUpsert (normalizeDoc d) ts)]) ∧
    (runTo ⟨ci, si⟩ [(t, .fgUpsert d ns ts)] u).backend.store
      = (if firedIn ci t u || sentIn si t u
         then [(identOfDoc d ns, ⟨normalizeDoc d, ts, 0⟩)] else []) ∧
    (runTo ⟨ci, si⟩ [(t, .fgUpsert d ns ts)] u).backend.visible
      = (if firedIn ci t u then [identOfDoc d ns] else []) ∧
    (runTo ⟨ci, si⟩ [(t, .fgUpsert d ns ts)] u).nextSeq
      = (if firedIn ci t u || sentIn si t u then 1 else 0) := by
  intro u
  induction u with
  | zero =>
    intro hu
    have ht : t = 0 := Nat.le_zero.mp hu
    subst ht
    rw [firedIn_self, sentIn_self]
    show (stepAt ⟨ci, si⟩ [(0, .fgUpsert d ns ts)] 0 initState).buffer = _ ∧ _
    exact stepAt_arrival ci si d ns ts 0 initState rfl rfl rfl rfl
  | succ n ih =>
    intro hu
    by_cases hn : t ≤ n
    · have hprev := ih hn
      have hfg : ([((t : Nat), FgOp.fgUpsert d ns ts)].filter
          (fun p => p.1 == n + 1)) = [] :=
        filter_single_ne t (n + 1) _ (by omega)
      have hstep : runTo ⟨ci, si⟩ [(t, .fgUpsert d ns ts)] (n + 1)
          = (if commitFires ci (n + 1) then
              commitDM (if sendFires si (n + 1) then
                sendBuffer (runTo ⟨ci, si⟩ [(t, .fgUpsert d ns ts)] n)
                else runTo ⟨ci, si⟩ [(t, .fgUpsert d ns ts)] n)
             else (if sendFires si (n + 1) then
                sendBuffer (runTo ⟨ci, si⟩ [(t, .fgUpsert d ns ts)] n)
                else runTo ⟨ci, si⟩ [(t, .fgUpsert d ns ts)] n)) := by
        rw [runTo]
        exact stepAt_nofg _ _ _ _ hfg
      have hdec : decide (t ≤ n + 1) = true := decide_eq_true (by omega)
      rw [hstep, firedIn_succ, sentIn_succ, hdec]
      obtain ⟨hb, hst, hv, hsq⟩ := hprev
      by_cases hcf : commitFires ci (n + 1) <;>
        by_cases hsf : sendFires si (n + 1) <;>
          by_cases hfu : firedIn ci t n <;>
            by_cases hsu : sentIn si t n <;>
              simp_all [commitDM, sendBuffer, refreshDM, flushStore,
                applyEntryToStore, List.filter]
    · have ht : t = n + 1 := by omega
      subst ht
      have hprev := runTo_quiet ⟨ci, si⟩ [(n + 1, FgOp.fgUpsert d ns ts)] n
        (by intro p hp; rcases List.mem_singleton.mp hp with rfl; omega)
      rw [firedIn_self, sentIn_self]
      show (stepAt ⟨ci, si⟩ [(n + 1, .fgUpsert d ns ts)] (n + 1)
        (runTo ⟨ci, si⟩ [(n + 1, .fgUpsert d ns ts)] n)).buffer = _ ∧ _
      exact stepAt_arrival ci si d ns ts (n + 1) _ hprev.1 hprev.2.1
        hprev.2.2.1 hprev.2.2.2

/-- A fold of upsert-only foreground calls never touches the backend or
the sequence counter. -/
theorem foldl_fgUpserts_backend (l : List FgOp)
    (hall : ∀ op ∈ l, ∃ d ns ts, op = FgOp.fgUpsert d ns ts) (s : DMState) :
    (l.foldl (fun st op => applyFg op st) s).backend = s.backend ∧
    (l.foldl (fun st op => applyFg op st) s).nextSeq = s.nextSeq := by
  induction l generalizing s with
  | nil => exact ⟨rfl, rfl⟩
  | cons op rest ih =>
    obtain ⟨d, ns, ts, rfl⟩ := hall op (by simp)
    exact ih (fun op2 h2 => hall op2 (by simp [h2]))
      (applyFg (.fgUpsert d ns ts) s)

/-- With the commit timer disabled, no run of upsert-only operations ever
makes anything visible, whatever the send timer does. -/
theorem runTo_no_commit_visible (si : Option Nat)
    (ops : List (Nat × FgOp))
    (hall : ∀ p ∈ ops, ∃ d ns ts, p.2 = FgOp.fgUpsert d ns ts) :
    ∀ u, (runTo ⟨none, si⟩ ops u).backend.visible = [] := by
  have hstep : ∀ t (s : DMState), s.backend.visible = [] →
      (stepAt ⟨none, si⟩ ops t s).backend.visible = [] := by
    intro t s hv
    have hup : ∀ op ∈ (ops.filter (fun p => p.1 == t)).map (fun p => p.2),
        ∃ d ns ts, op = FgOp.fgUpsert d ns ts := by
      intro op hop
      rcases List.mem_map.mp hop with ⟨p, hp, rfl⟩
      exact hall p (List.mem_filter.mp hp).1
    have h1 := foldl_fgUpserts_backend _ hup s
    unfold stepAt
    by_cases hsf : sendFires si t <;>
      simp only [commitFires, hsf, Bool.false_eq_true, if_false, if_true] <;>
      first
        | rw [h1.1, hv]
        | (show (sendBuffer _).backend.visible = []
           rw [show ∀ s2 : DMState, (sendBuffer s2).backend.visible
             = s2.backend.visible from fun s2 => rfl]
           rw [h1.1, hv])
  intro u
  induction u with
  | zero => exact hstep 0 initState rfl
  | succ n ih => exact hstep (n + 1) _ ih

/-- A state with an empty visible set yields no search result for any
time range. -/
theorem searchDM_empty_visible (s : DMState) (h : s.backend.visible = [])
    (a b : Nat) : searchDM s a b = [] := by
  unfold searchDM visibleDocs
  rw [h]
  simp

/-- A state whose store and visible set hold exactly one document yields
that document for the range of its own timestamp. -/
theorem searchDM_single (s : DMState) (i : Ident) (sd : StoredDoc)
    (hst : s.backend.store = [(i, sd)]) (hv : s.backend.visible = [i]) :
    searchDM s sd.ts sd.ts = [sd.doc] := by
  unfold searchDM visibleDocs
  rw [hst, hv]
  simp

/-- C3: with a null commit interval no upserted document ever becomes
visible to search without an explicit flush, across any number of buffered
upserts and whatever the send timer does; with commit interval 0 an upsert
is visible at the very instant it is issued; with commit interval x
greater than 0 an upsert issued at instant t is visible by instant t + x;
and it is never visible at an instant at or after t before the commit
timer has fired at or after t. -/
theorem commit_interval_scheduling :
    (∀ (si : Option Nat) (ops : List (Nat × FgOp)),
      (∀ p ∈ ops, ∃ d ns ts, p.2 = FgOp.fgUpsert d ns ts) →
      ∀ u a b, (runTo ⟨none, si⟩ ops u).backend.visible = [] ∧
        searchDM (runTo ⟨none, si⟩ ops u) a b = []) ∧
    (∀ (d : Doc) (ns : String) (ts t : Nat),
      (runTo ⟨some 0, none⟩ [(t, .fgUpsert d ns ts)] t).backend.visible
        = [identOfDoc d ns] ∧
      searchDM (runTo ⟨some 0, none⟩ [(t, .fgUpsert d ns ts)] t) ts ts
        = [normalizeDoc d]) ∧
    (∀ (x : Nat), 0 < x → ∀ (d : Doc) (ns : String) (ts t : Nat),
      (runTo ⟨some x, none⟩
        [(t, .fgUpsert d ns ts)] (t + x)).backend.visible
        = [identOfDoc d ns] ∧
      searchDM (runTo ⟨some x, none⟩ [(t, .fgUpsert d ns ts)] (t + x)) ts ts
        = [normalizeDoc d]) ∧
    (∀ (x : Nat) (d : Doc) (ns : String) (ts t u : Nat), t ≤ u →
      firedIn (some x) t u = false →
      ∀ a b, (runTo ⟨some x, none⟩
        [(t, .fgUpsert d ns ts)] u).backend.visible = [] ∧
      searchDM (runTo ⟨some x, none⟩ [(t, .fgUpsert d ns ts)] u) a b
        = []) := by
  refine ⟨?_, ?_, ?_, ?_⟩
  · intro si ops hall u a b
    have hv := runTo_no_commit_visible si ops hall u
    exact ⟨hv, searchDM_empty_visible _ hv a b⟩
  · intro d ns ts t
    have h := runTo_single_upsert (some 0) none d ns ts t t (le_refl t)
    rw [firedIn_self] at h
    have hst : (runTo ⟨some 0, none⟩
        [(t, .fgUpsert d ns ts)] t).backend.store
        = [(identOfDoc d ns, ⟨normalizeDoc d, ts, 0⟩)] := by
      have := h.2.1
      simpa using this
    have hv : (runTo ⟨some 0, none⟩
        [(t, .fgUpsert d ns ts)] t).backend.visible
        = [identOfDoc d ns] := by
      have := h.2.2.1
      simpa using this
    exact ⟨hv, searchDM_single _ _ _ hst hv⟩
  · intro x hx d ns ts t
    have h := runTo_single_upsert (some x) none d ns ts t (t + x)
      (by omega)
    rw [firedIn_periodic x t hx] at h
    have hst : (runTo ⟨some x, none⟩
        [(t, .fgUpsert d ns ts)] (t + x)).backend.store
        = [(identOfDoc d ns, ⟨normalizeDoc d, ts, 0⟩)] := by
      have := h.2.1
      simpa using this
    have hv : (runTo ⟨some x, none⟩
        [(t, .fgUpsert d ns ts)] (t + x)).backend.visible
        = [identOfDoc d ns] := by
      have := h.2.2.1
      simpa using this
    exact ⟨hv, searchDM_single _ _ _ hst hv⟩
  · intro x d ns ts t u hu hnf a b
    have h := (runTo_single_upsert (some x) none d ns ts t u hu).2.2.1
    rw [hnf] at h
    have hv : (runTo ⟨some x, none⟩
        [(t, .fgUpsert d ns ts)] u).backend.visible = [] := by
      simpa using h
    exact ⟨hv, searchDM_empty_visible _ hv a b⟩

/-- C3 witness: concrete runs showing permanent invisibility with a null
interval, immediate visibility with interval 0, visibility within one
period with interval 2, and non-visibility before the timer fires with
interval 8. -/
theorem commit_interval_scheduling_witness :
    ((runTo ⟨none, none⟩
      [(0, .fgUpsert [("_id", Value.vStr "3")] "test.test" 1)]
      9).backend.visible = []) ∧
    (searchDM (runTo ⟨some 0, none⟩
      [(2, .fgUpsert [("_id", Value.vStr "3")] "test.test" 1)] 2) 1 1
      = [normalizeDoc [("_id", Value.vStr "3")]]) ∧
    (searchDM (runTo ⟨some 2, none⟩
      [(1, .fgUpsert [("_id", Value.vStr "3")] "test.test" 1)] 3) 1 1
      = [normalizeDoc [("_id", Value.vStr "3")]]) ∧
    ((runTo ⟨some 8, none⟩
      [(1, .fgUpsert [("_id", Value.vStr "3")] "test.test" 1)]
      5).backend.visible = []) := by
  refine ⟨(commit_interval_scheduling.1 none _ ?_ 9 0 0).1,
    (commit_interval_scheduling.2.1 _ _ 1 2).2,
    (commit_interval_scheduling.2.2.1 2 (by decide) _ _ 1 1).2,
    (commit_interval_scheduling.2.2.2 8 _ _ 1 1 5 (by decide) (by decide)
      0 0).1⟩
  intro p hp
  rcases List.mem_singleton.mp hp with rfl
  exact ⟨_, _, _, rfl⟩

/-- C5 counterexample: with auto_send_interval = 0 a buffered write is not
sent to the backend at all (the repository test pins interval 0 as
disabling the send timer): five instants after the upsert the backend
store is still empty while the write still sits in the buffer, refuting
the claim that interval 0 sends every buffered write immediately. -/
theorem send_interval_zero_counterexample :
    ((runTo ⟨none, some 0⟩
      [(0, .fgUpsert [("_id", Value.vStr "3"), ("name", Value.vStr "Waldo")]
        "test.test" 1)] 5).backend.store = []) ∧
    ((runTo ⟨none, some 0⟩
      [(0, .fgUpsert [("_id", Value.vStr "3"), ("name", Value.vStr "Waldo")]
        "test.test" 1)] 5).buffer ≠ []) :=
  ⟨by decide, by decide⟩

/-- C5 (amended): the send timer is disabled when auto_send_interval is
None or 0 (no buffered write reaches the backend without an explicit
flush), and with interval x greater than 0 it fires on a fixed period of
x: a write issued at instant t is durable in the backend store by instant
t + x while still not visible to queries, the commit timer being off. -/
theorem send_interval_scheduling_amended :
    (∀ (si : Option Nat), si = none ∨ si = some 0 →
      ∀ (d : Doc) (ns : String) (ts t u : Nat), t ≤ u →
      (runTo ⟨none, si⟩ [(t, .fgUpsert d ns ts)] u).backend.store = [] ∧
      (runTo ⟨none, si⟩ [(t, .fgUpsert d ns ts)] u).backend.visible = []) ∧
    (∀ (x : Nat), 0 < x → ∀ (d : Doc) (ns : String) (ts t : Nat),
      (runTo ⟨none, some x⟩
        [(t, .fgUpsert d ns ts)] (t + x)).backend.store
        = [(identOfDoc d ns, ⟨normalizeDoc d, ts, 0⟩)] ∧
      (runTo ⟨none, some x⟩
        [(t, .fgUpsert d ns ts)] (t + x)).backend.visible = []) := by
  constructor
  · intro si hsi d ns ts t u hu
    have h := runTo_single_upsert none si d ns ts t u hu
    have hf : firedIn none t u = false := by
      unfold firedIn
      rw [List.any_eq_false]
      intro f _
      simp [commitFires]
    have hs : sentIn si t u = false := sentIn_disabled si t u hsi
    rw [hf, hs] at h
    exact ⟨by simpa using h.2.1, by simpa using h.2.2.1⟩
  · intro x hx d ns ts t
    have h := runTo_single_upsert none (some x) d ns ts t (t + x) (by omega)
    have hf : firedIn none t (t + x) = false := by
      unfold firedIn
      rw [List.any_eq_false]
      intro f _
      simp [commitFires]
    have hs : sentIn (some x) t (t + x) = true := sentIn_periodic x t hx
    rw [hf, hs] at h
    exact ⟨by simpa using h.2.1, by simpa using h.2.2.1⟩

/-- C5 amended witness: a concrete disabled-interval run keeps the store
empty, and a concrete period-3 run has sent the write by instant 4 while
nothing is visible. -/
theorem send_interval_scheduling_amended_witness :
    ((runTo ⟨none, some 0⟩
      [(0, .fgUpsert [("_id", Value.vStr "3")] "test.test" 1)]
      4).backend.store = []) ∧
    ((runTo ⟨none, some 3⟩
      [(1, .fgUpsert [("_id", Value.vStr "3")] "test.test" 1)]
      4).backend.store
      = [(identOfDoc [("_id", Value.vStr "3")] "test.test",
          ⟨normalizeDoc [("_id", Value.vStr "3")], 1, 0⟩)]) :=
  ⟨(send_interval_scheduling_amended.1 (some 0) (Or.inr rfl) _ _ 1 0 4
      (by omega)).1,
   (send_interval_scheduling_amended.2 3 (by omega) _ _ 1 1).1⟩

end Elastic2
